import Mathlib

/-!
Verification of the dependency-graph engine of the Task Dependency
Management System (Django backend, `tasks` app).

The development shallowly embeds the relevant code of
`backend/tasks/models.py` and `backend/tasks/views.py`:

* `TaskStatus`, `TaskRec`, `Store` — the data model (`Task`,
  `TaskDependency` rows; an edge `(t, d)` means "task `t` depends on
  task `d`").  Only the fields the claims are about are modelled
  (id, status, priority, estimated_hours, version); text fields and
  timestamps carry no verified content.  Database primary keys are
  positive, which appears as `≠ 0` hypotheses where the code tests
  ids for Python truthiness.
* `newStatusFor` / `updateStatusBasedOnDependencies` — the status
  resolver `Task.update_status_based_on_dependencies`.
* `dfs`/`dfsList`/`detectCircularDependency` — the cycle detector
  `TaskDependency.detect_circular_dependency` (fuel-indexed; the fuel
  is a termination device and is provably sufficient).
* `taskDependencySave` — `TaskDependency.save` (full_clean + insert +
  resolver), with Django `Model.save` keyword-argument checking made
  explicit, since the view passes a `skip_validation` keyword that
  Django's `Model.save` does not accept.
* `addDependency` — the view `TaskViewSet.add_dependency`.
* `performUpdate`, `markCompleted`, `forceComplete` — the update /
  completion endpoints, including the raw-SQL paths.
* `calculatePathTime` / `getEstimatedCompletionTime` — the critical
  path calculator `Task.get_estimated_completion_time`.
* `propagateStatusUpdate` — `Task.propagate_status_update`.

Python sets are modelled as lists used up to membership; dict-of-set
adjacency is modelled by `succs` over the edge list.
-/

/-- `TaskStatus` choices from `models.TaskStatus`. -/
inductive TaskStatus where
  | pending
  | inProgress
  | completed
  | blocked
deriving DecidableEq, Repr

/-- The modelled fields of a stored `Task` row. -/
structure TaskRec where
  id : Nat
  status : TaskStatus
  priority : Nat
  estimatedHours : Nat
  version : Nat
deriving DecidableEq, Repr

/-- The store: task rows plus dependency edges `(task_id, depends_on_id)`,
in insertion order. -/
structure Store where
  tasks : List TaskRec
  edges : List (Nat × Nat)
deriving DecidableEq, Repr

/-- `Task.objects.get(id=...)` (as an `Option`). -/
def getTask (s : Store) (id : Nat) : Option TaskRec :=
  s.tasks.find? (fun t => t.id = id)

/-- `Task.get_dependencies`: the rows this task depends on, in edge
order; dangling foreign keys cannot occur in the database and are
dropped. -/
def getDependencies (s : Store) (id : Nat) : List TaskRec :=
  ((s.edges.filter (fun e => e.1 = id)).map (fun e => e.2)).filterMap (getTask s)

/-- `Task.get_dependents`: the rows that depend on this task. -/
def getDependents (s : Store) (id : Nat) : List TaskRec :=
  ((s.edges.filter (fun e => e.2 = id)).map (fun e => e.1)).filterMap (getTask s)

/-- `Task.can_start`: no dependencies, or all of them completed. -/
def canStart (s : Store) (id : Nat) : Bool :=
  (getDependencies s id).all (fun dep => dep.status = TaskStatus.completed)

/-- `Task.is_blocked`: some direct dependency is blocked. -/
def isBlocked (s : Store) (id : Nat) : Bool :=
  (getDependencies s id).any (fun dep => dep.status = TaskStatus.blocked)

/-- The status computed by `Task.update_status_based_on_dependencies`
from the task's current status and its direct dependencies' statuses
(the method's branch structure, with `is_blocked` = some dependency
blocked, `can_start` = all dependencies completed). -/
def newStatusFor (current : TaskStatus) (deps : List TaskStatus) : TaskStatus :=
  if current = TaskStatus.completed then current
  else if deps.any (fun d => d = TaskStatus.blocked) then TaskStatus.blocked
  else if deps.all (fun d => d = TaskStatus.completed) then
    (if current = TaskStatus.pending ∨ current = TaskStatus.blocked then
      TaskStatus.inProgress
    else current)
  else
    (if ¬ deps.isEmpty ∧ current = TaskStatus.inProgress then TaskStatus.pending
    else current)

/-- The task fields named in `update_fields` lists (`updated_at` is a
timestamp and carries no modelled value). -/
inductive TaskField where
  | fStatus
  | fPriority
  | fEstimatedHours
  | fVersion
  | fUpdatedAt
deriving DecidableEq, Repr

/-- Django's write of an instance over a stored row: with
`update_fields=None` every field of the instance is written; with an
explicit list only the named fields are taken from the instance and
the rest keep their stored values. -/
def mergeFields (stored inst : TaskRec) (updateFields : Option (List TaskField)) : TaskRec :=
  match updateFields with
  | none => inst
  | some fs =>
    { stored with
      status := if fs.contains TaskField.fStatus then inst.status else stored.status,
      priority := if fs.contains TaskField.fPriority then inst.priority else stored.priority,
      estimatedHours :=
        if fs.contains TaskField.fEstimatedHours then inst.estimatedHours
        else stored.estimatedHours,
      version := if fs.contains TaskField.fVersion then inst.version else stored.version }

/-- The write part of `Task.save` on an existing row, after the
concurrency check: increment the in-memory version by 1, then persist
the instance (respecting `update_fields` — note `version` is persisted
only when it is either a full save or listed). -/
def taskSaveWrite (s : Store) (inst : TaskRec) (updateFields : Option (List TaskField)) :
    Store :=
  let inc := { inst with version := inst.version + 1 }
  { s with
    tasks := s.tasks.map (fun r => if r.id = inst.id then mergeFields r inc updateFields else r) }

/-- `Task.save` on an existing row: when `_expected_version` is set,
reject with a `concurrent_modification` `ValidationError` unless a row
with that id and version exists; otherwise increment the version and
persist. -/
def taskSave (s : Store) (inst : TaskRec) (expectedVersion : Option Nat)
    (updateFields : Option (List TaskField)) : Except String Store :=
  match expectedVersion with
  | some ev =>
    if (s.tasks.find? (fun r => r.id = inst.id ∧ r.version = ev)).isNone then
      Except.error "concurrent_modification"
    else Except.ok (taskSaveWrite s inst updateFields)
  | none => Except.ok (taskSaveWrite s inst updateFields)

/-- `Task.update_status_based_on_dependencies` acting on the instance
`t` (as fetched): computes the new status from the live dependency
statuses; when it changed, persists it through
`self.save(update_fields=['status', 'updated_at'])` (no
`_expected_version` is set on this path, so that save cannot fail) and
returns whether it changed. -/
def updateStatusBasedOnDependencies (s : Store) (t : TaskRec) : Bool × Store :=
  let newSt := newStatusFor t.status ((getDependencies s t.id).map (fun d => d.status))
  if newSt = t.status then (false, s)
  else
    (true,
      taskSaveWrite s { t with status := newSt }
        (some [TaskField.fStatus, TaskField.fUpdatedAt]))

/-- quick sanity examples for the resolver -/
example : newStatusFor TaskStatus.pending [TaskStatus.completed] = TaskStatus.inProgress := by
  decide

example : newStatusFor TaskStatus.inProgress [TaskStatus.completed, TaskStatus.blocked] =
    TaskStatus.blocked := by decide

example : newStatusFor TaskStatus.inProgress [TaskStatus.pending] = TaskStatus.pending := by
  decide

example : newStatusFor TaskStatus.completed [TaskStatus.blocked] = TaskStatus.completed := by
  decide

/-- Adjacency of the dict-of-sets graph built by
`TaskDependency._build_dependency_graph`: the depends-on ids of the
edges whose source is `n`. -/
def succs (g : List (Nat × Nat)) (n : Nat) : List Nat :=
  (g.filter (fun e => e.1 = n)).map (fun e => e.2)

/-- The mutable traversal state of `detect_circular_dependency`:
`visited` and `recStack` are Python sets (lists up to membership),
`path` is the current traversal path in order. -/
structure DfsState where
  visited : List Nat
  recStack : List Nat
  path : List Nat
deriving DecidableEq, Repr

/-- The inner `dfs` of `TaskDependency.detect_circular_dependency`.
The fuel argument only forces termination (Python recursion has none);
every lemma assumes enough fuel and the wrapper supplies a provably
sufficient amount.  The `for neighbor in graph.get(node, [])` loop is
a fold that carries the found cycle (if any) and the mutated state;
once a cycle is found the remaining neighbors are skipped, exactly as
the early `return` does. -/
def dfs (g : List (Nat × Nat)) : Nat → Nat → DfsState → Option (List Nat) × DfsState
  | 0, _, s => (none, s)
  | fuel + 1, node, s =>
    if node ∈ s.recStack then
      (some ((s.path.drop (s.path.indexOf node)) ++ [node]), s)
    else if node ∈ s.visited then
      (none, s)
    else
      match (succs g node).foldl
          (fun acc nb =>
            match acc with
            | (some c, s2) => (some c, s2)
            | (none, s2) => dfs g fuel nb s2)
          (none, ⟨node :: s.visited, node :: s.recStack, s.path ++ [node]⟩) with
      | (some c, s2) => (some c, s2)
      | (none, s2) => (none, ⟨s2.visited, s2.recStack.erase node, s2.path.dropLast⟩)

/-- `TaskDependency.detect_circular_dependency` for the candidate edge
`(t, d)`: skip when either id is Python-falsy (0 models a missing /
zero id; real primary keys are positive), otherwise run `dfs` from `t`
on the stored edges plus the candidate edge.  The fuel
`g.length + 2` exceeds the number of distinct reachable nodes, so it
is never exhausted. -/
def detectCircularDependency (edges : List (Nat × Nat)) (t d : Nat) : Option (List Nat) :=
  if t = 0 ∨ d = 0 then none
  else
    let g := (t, d) :: edges
    (dfs g (g.length + 2) t ⟨[], [], []⟩).1

example : detectCircularDependency [(1, 2), (2, 3)] 3 1 = some [3, 1, 2, 3] := by decide

example : detectCircularDependency [(1, 2)] 3 2 = none := by decide

example : detectCircularDependency [] 1 2 = none := by decide

/-- Error outcomes of `TaskDependency.save` (`full_clean` raises
`ValidationError`s; the forwarded keyword arguments can make Django's
`Model.save` itself raise `TypeError`). -/
inductive DepSaveErr where
  | selfReference
  | circular (path : List Nat)
  | duplicate
  | typeError
deriving DecidableEq, Repr

/-- The keyword arguments Django's `Model.save` accepts; any other
keyword raises `TypeError` before anything is written. -/
def djangoModelSaveParams : List String :=
  ["force_insert", "force_update", "using", "update_fields"]

/-- `TaskDependency.save(**kwargs)`: `full_clean()` (which runs
`clean()` — self-reference check then cycle detection — and
`validate_unique()` for the `unique_together` constraint), then inside
a transaction `super().save(**kwargs)` followed by
`self.task.update_status_based_on_dependencies()`.  The `kwargs`
forwarded to Django's `Model.save` must all be parameters it accepts,
otherwise the save raises `TypeError` and nothing is written. -/
def taskDependencySave (kwargs : List String) (s : Store) (taskId dependsOnId : Nat) :
    Except DepSaveErr Store :=
  if taskId = dependsOnId then Except.error DepSaveErr.selfReference
  else
    match detectCircularDependency s.edges taskId dependsOnId with
    | some p => Except.error (DepSaveErr.circular p)
    | none =>
      if (taskId, dependsOnId) ∈ s.edges then Except.error DepSaveErr.duplicate
      else if kwargs.all (fun k => djangoModelSaveParams.contains k) then
        match getTask { s with edges := s.edges ++ [(taskId, dependsOnId)] } taskId with
        | some t =>
          Except.ok
            (updateStatusBasedOnDependencies
              { s with edges := s.edges ++ [(taskId, dependsOnId)] } t).2
        | none => Except.ok { s with edges := s.edges ++ [(taskId, dependsOnId)] }
      else Except.error DepSaveErr.typeError

/-- Responses of the `add_dependency` view. -/
inductive AddDepResp where
  | created (edge : Nat × Nat)
  | notFound
  | badRequestMissingDependsOn
  | badRequestSelfReference
  | badRequestDuplicate
  | badRequestCircular (path : List Nat)
  | badRequestValidation (e : DepSaveErr)
  | serverError
deriving DecidableEq, Repr

/-- `TaskViewSet.add_dependency`: resolve the task (404 when absent),
run `AddDependencySerializer` (depends-on existence, self-reference,
duplicate — the view re-checks the duplicate with the same condition),
run the cycle pre-check, then call
`dependency.save(skip_validation=True)` inside `transaction.atomic()`.
A `ValidationError` from the save is a 400; any other exception (here:
the `TypeError` from the unexpected `skip_validation` keyword) is
caught by the generic handler as a 500, and the transaction leaves the
store unchanged. -/
def addDependency (s : Store) (pk dependsOnId : Nat) : AddDepResp × Store :=
  match getTask s pk with
  | none => (AddDepResp.notFound, s)
  | some _ =>
    if (getTask s dependsOnId).isNone then (AddDepResp.badRequestMissingDependsOn, s)
    else if pk = dependsOnId then (AddDepResp.badRequestSelfReference, s)
    else if (pk, dependsOnId) ∈ s.edges then (AddDepResp.badRequestDuplicate, s)
    else
      match detectCircularDependency s.edges pk dependsOnId with
      | some p => (AddDepResp.badRequestCircular p, s)
      | none =>
        match taskDependencySave ["skip_validation"] s pk dependsOnId with
        | Except.ok s' => (AddDepResp.created (pk, dependsOnId), s')
        | Except.error DepSaveErr.typeError => (AddDepResp.serverError, s)
        | Except.error e => (AddDepResp.badRequestValidation e, s)

/-- The update payload of a task PATCH/PUT, already type-validated by
the serializer layer (absent fields are not updated). -/
structure UpdateData where
  status : Option TaskStatus
  priority : Option Nat
  estimatedHours : Option Nat
  version : Option Nat
deriving DecidableEq, Repr

/-- Responses of `perform_update`. -/
inductive UpdateResp where
  | ok
  | versionConflict (current provided : Nat)
  | notFound
deriving DecidableEq, Repr

/-- `TaskSerializer.update` + `Task.save()`: merge the provided fields
into the instance and do a full save (all fields persisted, version
incremented by 1). -/
def serializerSave (s : Store) (old : TaskRec) (data : UpdateData) : Store :=
  taskSaveWrite s
    { old with
      status := data.status.getD old.status,
      priority := data.priority.getD old.priority,
      estimatedHours := data.estimatedHours.getD old.estimatedHours }
    none

/-- The raw-SQL update used by `perform_update` for the hard-coded
"problematic" ids 31 and 22: provided in-range fields are written
directly; the version is not touched. -/
def rawSqlUpdate (s : Store) (pk : Nat) (data : UpdateData) : Store :=
  { s with
    tasks := s.tasks.map (fun r =>
      if r.id = pk then
        { r with
          status := data.status.getD r.status,
          priority :=
            match data.priority with
            | some p => if 1 ≤ p ∧ p ≤ 5 then p else r.priority
            | none => r.priority,
          estimatedHours :=
            match data.estimatedHours with
            | some h => if 1 ≤ h ∧ h ≤ 200 then h else r.estimatedHours
            | none => r.estimatedHours }
      else r) }

/-- `TaskViewSet.perform_update`: fetch the object, reject with a
version conflict (reporting current and provided versions) when the
request carries a version different from the stored one, then either
the raw-SQL path (ids 31/22) or the serializer save.  The disabled
status-propagation block after the save is a comment in the source and
does nothing. -/
def performUpdate (s : Store) (pk : Nat) (data : UpdateData) : UpdateResp × Store :=
  match getTask s pk with
  | none => (UpdateResp.notFound, s)
  | some old =>
    match data.version with
    | some v =>
      if v ≠ old.version then (UpdateResp.versionConflict old.version v, s)
      else if pk = 31 ∨ pk = 22 then (UpdateResp.ok, rawSqlUpdate s pk data)
      else (UpdateResp.ok, serializerSave s old data)
    | none =>
      if pk = 31 ∨ pk = 22 then (UpdateResp.ok, rawSqlUpdate s pk data)
      else (UpdateResp.ok, serializerSave s old data)

/-- Responses of the raw-SQL completion endpoints. -/
inductive SimpleResp where
  | ok
  | notFound
deriving DecidableEq, Repr

/-- `TaskViewSet.mark_completed`: raw SQL
`UPDATE tasks SET status='completed', updated_at=NOW() WHERE id=%s` —
the version column is not updated. -/
def markCompleted (s : Store) (pk : Nat) : SimpleResp × Store :=
  if (getTask s pk).isNone then (SimpleResp.notFound, s)
  else
    (SimpleResp.ok,
      { s with
        tasks := s.tasks.map (fun r =>
          if r.id = pk then { r with status := TaskStatus.completed } else r) })

/-- `TaskViewSet.force_complete`: raw SQL that sets
`status='completed'` and `version = version + 1`. -/
def forceComplete (s : Store) (pk : Nat) : SimpleResp × Store :=
  if (getTask s pk).isNone then (SimpleResp.notFound, s)
  else
    (SimpleResp.ok,
      { s with
        tasks := s.tasks.map (fun r =>
          if r.id = pk then { r with status := TaskStatus.completed, version := r.version + 1 }
          else r) })

/-- `Task.propagate_status_update`: re-resolve each direct dependent's
status; recurse from a dependent whenever its status changed.  Fuel
only forces termination. -/
def propagateStatusUpdate : Nat → Store → Nat → Store
  | 0, s, _ => s
  | fuel + 1, s, taskId =>
    (getDependents s taskId).foldl
      (fun st dep =>
        let r := updateStatusBasedOnDependencies st dep
        if r.1 then propagateStatusUpdate fuel r.2 dep.id else r.2)
      s

/-- The result shape of `Task.get_estimated_completion_time`. -/
structure CompletionEstimate where
  totalHours : Nat
  criticalPath : List Nat
  canStartImmediately : Bool
deriving DecidableEq, Repr

/-- The inner `calculate_path_time` closure: the shared `visited` set
is threaded through every recursive call (also across sibling
dependency branches).  Note the id is added to `visited` before the
task lookup and the completed check, and a completed or revisited or
missing task contributes `(0, [])`.  Fuel only forces termination. -/
def calculatePathTime (s : Store) : Nat → Nat → List Nat → (Nat × List Nat) × List Nat
  | 0, _, visited => ((0, []), visited)
  | fuel + 1, taskId, visited =>
    if taskId ∈ visited then ((0, []), visited)
    else
      let visited1 := taskId :: visited
      match getTask s taskId with
      | none => ((0, []), visited1)
      | some task =>
        if task.status = TaskStatus.completed then ((0, []), visited1)
        else
          let deps := getDependencies s taskId
          if deps.isEmpty then ((task.estimatedHours, [taskId]), visited1)
          else
            let r := deps.foldl
              (fun (acc : (Nat × List Nat) × List Nat) dep =>
                if dep.status ≠ TaskStatus.completed then
                  let q := calculatePathTime s fuel dep.id acc.2
                  if q.1.1 > acc.1.1 then (q.1, q.2) else (acc.1, q.2)
                else acc)
              ((0, []), visited1)
            ((r.1.1 + task.estimatedHours, r.1.2 ++ [taskId]), r.2)

/-- `Task.get_estimated_completion_time`: completed tasks report 0
hours and a singleton path; otherwise run `calculate_path_time` from
this task with a fresh `visited` set (the fuel `tasks.length + 1`
bounds the recursion depth, which only grows through fresh existing
tasks). -/
def getEstimatedCompletionTime (s : Store) (taskId : Nat) : Option CompletionEstimate :=
  match getTask s taskId with
  | none => none
  | some task =>
    if task.status = TaskStatus.completed then
      some ⟨0, [taskId], true⟩
    else
      let r := calculatePathTime s (s.tasks.length + 1) taskId []
      some ⟨r.1.1, r.1.2, canStart s taskId⟩

/-! ## Status resolver properties -/

/-- Claim C7 — blocked dominance: a non-completed task with some
direct dependency blocked resolves to `blocked` regardless of the
other dependencies' statuses, and `is_blocked` holds iff at least one
direct dependency is blocked. -/
theorem C7_blocked_dominance :
    (∀ (cur : TaskStatus) (deps : List TaskStatus),
        cur ≠ TaskStatus.completed → TaskStatus.blocked ∈ deps →
        newStatusFor cur deps = TaskStatus.blocked) ∧
    (∀ (s : Store) (id : Nat),
        isBlocked s id = true ↔
          ∃ d ∈ getDependencies s id, d.status = TaskStatus.blocked) := by
  constructor
  · intro cur deps hcur hmem
    have hany : deps.any (fun d => d = TaskStatus.blocked) = true :=
      List.any_eq_true.mpr ⟨TaskStatus.blocked, hmem, by decide⟩
    simp [newStatusFor, hcur, hany]
  · intro s id
    simp [isBlocked, List.any_eq_true]

/-- Claim C7 witness: a concrete instantiation of both conjuncts. -/
theorem C7_blocked_dominance_witness :
    newStatusFor TaskStatus.pending [TaskStatus.completed, TaskStatus.blocked] =
      TaskStatus.blocked ∧
    (isBlocked ⟨[⟨1, TaskStatus.blocked, 3, 8, 1⟩, ⟨2, TaskStatus.pending, 3, 8, 1⟩],
        [(2, 1)]⟩ 2 = true ↔
      ∃ d ∈ getDependencies ⟨[⟨1, TaskStatus.blocked, 3, 8, 1⟩,
          ⟨2, TaskStatus.pending, 3, 8, 1⟩], [(2, 1)]⟩ 2,
        d.status = TaskStatus.blocked) :=
  ⟨C7_blocked_dominance.1 TaskStatus.pending [TaskStatus.completed, TaskStatus.blocked]
      (by decide) (by decide),
    C7_blocked_dominance.2 _ 2⟩

/-- Claim C8 — promotion without oscillation: when every direct
dependency is completed (in particular when there are none), resolving
from `pending` yields `in_progress`, and resolving a task already
`in_progress` leaves it `in_progress` (no oscillation). -/
theorem C8_promotion_no_oscillation :
    ∀ (cur : TaskStatus) (deps : List TaskStatus),
      (∀ d ∈ deps, d = TaskStatus.completed) →
      (cur = TaskStatus.pending → newStatusFor cur deps = TaskStatus.inProgress) ∧
      (cur = TaskStatus.inProgress → newStatusFor cur deps = TaskStatus.inProgress) := by
  intro cur deps hdeps
  have hnotb : deps.any (fun d => d = TaskStatus.blocked) = false := by
    rw [List.any_eq_false]
    intro d hd
    simp [hdeps d hd]
  have hall : deps.all (fun d => d = TaskStatus.completed) = true :=
    List.all_eq_true.mpr (fun d hd => by simp [hdeps d hd])
  constructor
  · intro hcur
    subst hcur
    simp [newStatusFor, hnotb, hall]
  · intro hcur
    subst hcur
    simp [newStatusFor, hnotb, hall]

/-- Claim C8 witness: both reads at a concrete dependency multiset. -/
theorem C8_promotion_no_oscillation_witness :
    newStatusFor TaskStatus.pending [TaskStatus.completed] = TaskStatus.inProgress ∧
    newStatusFor TaskStatus.inProgress [TaskStatus.completed] = TaskStatus.inProgress :=
  ⟨(C8_promotion_no_oscillation TaskStatus.pending [TaskStatus.completed]
      (by decide)).1 rfl,
    (C8_promotion_no_oscillation TaskStatus.inProgress [TaskStatus.completed]
      (by decide)).2 rfl⟩

/-! ## Helper lemmas about store lookups -/

/-- `find?` commutes with mapping a function that preserves the
predicate. -/
theorem find?_map_of_pred {α : Type} (p : α → Bool) (f : α → α)
    (hf : ∀ a, p (f a) = p a) :
    ∀ l : List α, (l.map f).find? p = (l.find? p).map f := by
  intro l
  induction l with
  | nil => rfl
  | cons a l ih =>
    by_cases h : p a = true
    · rw [List.map_cons, List.find?_cons_of_pos _ (by rw [hf]; exact h),
        List.find?_cons_of_pos _ h, Option.map_some']
    · rw [List.map_cons, List.find?_cons_of_neg _ (by rw [hf]; simpa using h),
        List.find?_cons_of_neg _ (by simpa using h), ih]

/-- Looking a task up in a store whose rows were rewritten at id `i`
by an id-preserving modification. -/
theorem getTask_map_modify (s : Store) (i tid : Nat) (f : TaskRec → TaskRec)
    (hf : ∀ r, r.id = i → (f r).id = r.id) :
    getTask { s with tasks := s.tasks.map (fun r => if r.id = i then f r else r) } tid =
      (getTask s tid).map (fun r => if r.id = i then f r else r) := by
  unfold getTask
  exact find?_map_of_pred _ _
    (fun r => by
      by_cases h : r.id = i
      · simp [h, hf r h]
      · simp [h]) s.tasks

/-- `mergeFields` with `update_fields=['status', 'updated_at']` writes
exactly the status. -/
theorem mergeFields_statusOnly (stored inst : TaskRec) :
    mergeFields stored inst (some [TaskField.fStatus, TaskField.fUpdatedAt]) =
      { stored with status := inst.status } := by
  simp [mergeFields]

/-! ## Claim C10 -/

/-- Claim C10 — automatic resolution never completes a task: the
resolver only ever assigns `pending`, `in_progress` or `blocked`; on a
`completed` task it returns unchanged; and propagation (which writes
only through the resolver) never turns a non-completed stored task
into a completed one. -/
theorem C10_resolution_never_completes :
    (∀ (cur : TaskStatus) (deps : List TaskStatus),
        cur ≠ TaskStatus.completed → newStatusFor cur deps ≠ TaskStatus.completed) ∧
    (∀ (s : Store) (t : TaskRec), t.status = TaskStatus.completed →
        updateStatusBasedOnDependencies s t = (false, s)) ∧
    (∀ (fuel : Nat) (s : Store) (changedId tid : Nat) (r : TaskRec),
        getTask (propagateStatusUpdate fuel s changedId) tid = some r →
        r.status = TaskStatus.completed →
        ∃ r0, getTask s tid = some r0 ∧ r0.status = TaskStatus.completed) := by
  have h1 : ∀ (cur : TaskStatus) (deps : List TaskStatus),
      cur ≠ TaskStatus.completed → newStatusFor cur deps ≠ TaskStatus.completed := by
    intro cur deps hcur
    unfold newStatusFor
    split_ifs <;> simp_all
  have h2 : ∀ (s : Store) (t : TaskRec), t.status = TaskStatus.completed →
      updateStatusBasedOnDependencies s t = (false, s) := by
    intro s t ht
    simp [updateStatusBasedOnDependencies, newStatusFor, ht]
  have hstep : ∀ (s : Store) (t : TaskRec) (tid : Nat) (r : TaskRec),
      getTask (updateStatusBasedOnDependencies s t).2 tid = some r →
      r.status = TaskStatus.completed →
      ∃ r0, getTask s tid = some r0 ∧ r0.status = TaskStatus.completed := by
    intro s t tid r hget hc
    unfold updateStatusBasedOnDependencies at hget
    set newSt := newStatusFor t.status ((getDependencies s t.id).map (fun d => d.status))
      with hdef
    by_cases hch : newSt = t.status
    · rw [if_pos hch] at hget
      exact ⟨r, hget, hc⟩
    · rw [if_neg hch] at hget
      have hns : newSt ≠ TaskStatus.completed := by
        intro hcomp
        by_cases htc : t.status = TaskStatus.completed
        · rw [hdef] at hch
          simp [newStatusFor, htc] at hch
        · exact h1 t.status _ htc (hdef ▸ hcomp)
      unfold taskSaveWrite at hget
      rw [getTask_map_modify _ _ _ _ (fun r0 h0 => by
        rw [mergeFields_statusOnly]
        )] at hget
      match hfind : getTask s tid with
      | none => rw [hfind] at hget; exact absurd hget (by simp)
      | some r0 =>
        rw [hfind] at hget
        simp only [Option.map_some', Option.some.injEq] at hget
        by_cases h0 : r0.id = t.id
        · rw [if_pos h0, mergeFields_statusOnly] at hget
          exfalso
          apply hns
          rw [← hc, ← hget]
        · rw [if_neg h0] at hget
          exact ⟨r0, rfl, by rw [hget]; exact hc⟩
  refine ⟨h1, h2, ?_⟩
  intro fuel
  induction fuel with
  | zero => intro s changedId tid r hget hc; exact ⟨r, hget, hc⟩
  | succ fuel ih =>
    have hfold : ∀ (ds : List TaskRec) (s : Store) (tid : Nat) (r : TaskRec),
        getTask (ds.foldl
          (fun st dep =>
            let q := updateStatusBasedOnDependencies st dep
            if q.1 then propagateStatusUpdate fuel q.2 dep.id else q.2) s) tid = some r →
        r.status = TaskStatus.completed →
        ∃ r0, getTask s tid = some r0 ∧ r0.status = TaskStatus.completed := by
      intro ds
      induction ds with
      | nil => intro s tid r hget hc; exact ⟨r, hget, hc⟩
      | cons d ds ihds =>
        intro s tid r hget hc
        rw [List.foldl_cons] at hget
        obtain ⟨r1, hr1, hc1⟩ := ihds _ tid r hget hc
        by_cases hchg : (updateStatusBasedOnDependencies s d).1 = true
        · rw [if_pos hchg] at hr1
          obtain ⟨r2, hr2, hc2⟩ := ih _ _ tid r1 hr1 hc1
          exact hstep s d tid r2 hr2 hc2
        · rw [if_neg hchg] at hr1
          exact hstep s d tid r1 hr1 hc1
    intro s changedId tid r hget hc
    exact hfold (getDependents s changedId) s tid r hget hc

/-- Claim C10 witness: concrete instantiations of all three conjuncts. -/
theorem C10_resolution_never_completes_witness :
    newStatusFor TaskStatus.pending [] ≠ TaskStatus.completed ∧
    updateStatusBasedOnDependencies ⟨[⟨1, TaskStatus.completed, 3, 8, 1⟩], []⟩
        ⟨1, TaskStatus.completed, 3, 8, 1⟩ =
      (false, ⟨[⟨1, TaskStatus.completed, 3, 8, 1⟩], []⟩) ∧
    (∃ r0, getTask ⟨[⟨1, TaskStatus.completed, 3, 8, 1⟩], []⟩ 1 = some r0 ∧
      r0.status = TaskStatus.completed) :=
  ⟨C10_resolution_never_completes.1 TaskStatus.pending [] (by decide),
    C10_resolution_never_completes.2.1 _ _ rfl,
    C10_resolution_never_completes.2.2 3 ⟨[⟨1, TaskStatus.completed, 3, 8, 1⟩], []⟩ 1 1
      ⟨1, TaskStatus.completed, 3, 8, 1⟩ (by decide) rfl⟩

/-! ## Claim C6 — optimistic concurrency -/

/-- Claim C6 — version conflict: an update carrying an expected
version different from the stored one is rejected with a conflict
response reporting stored and provided versions, and the store —
including the task's version — is left unchanged. -/
theorem C6_version_conflict_rejects_and_preserves :
    ∀ (s : Store) (pk : Nat) (data : UpdateData) (old : TaskRec) (v : Nat),
      getTask s pk = some old → data.version = some v → v ≠ old.version →
      performUpdate s pk data = (UpdateResp.versionConflict old.version v, s) := by
  intro s pk data old v hget hv hne
  simp [performUpdate, hget, hv, hne]

/-- Claim C6 witness: stored version 1, provided version 5. -/
theorem C6_version_conflict_witness :
    performUpdate ⟨[⟨1, TaskStatus.pending, 3, 8, 1⟩], []⟩ 1
        ⟨some TaskStatus.completed, none, none, some 5⟩ =
      (UpdateResp.versionConflict 1 5, ⟨[⟨1, TaskStatus.pending, 3, 8, 1⟩], []⟩) :=
  C6_version_conflict_rejects_and_preserves _ 1 _ ⟨1, TaskStatus.pending, 3, 8, 1⟩ 5
    (by decide) rfl (by decide)

/-! ## Claim C4 — propagation after a status-changing update -/

/-- Claim C4 evaluated — no propagation happens: updating task 1 from
`pending` to `completed` succeeds, but its dependent task 2 is left
`pending` even though re-resolving task 2 against its live dependency
statuses would yield `in_progress`; the propagation call sites in
`Task.save` and `perform_update` are commented out in the source. -/
theorem C4_no_propagation_on_status_change :
    performUpdate ⟨[⟨1, TaskStatus.pending, 3, 8, 1⟩, ⟨2, TaskStatus.pending, 3, 8, 1⟩],
        [(2, 1)]⟩ 1 ⟨some TaskStatus.completed, none, none, none⟩ =
      (UpdateResp.ok,
        ⟨[⟨1, TaskStatus.completed, 3, 8, 2⟩, ⟨2, TaskStatus.pending, 3, 8, 1⟩], [(2, 1)]⟩) ∧
    newStatusFor TaskStatus.pending [TaskStatus.completed] = TaskStatus.inProgress ∧
    TaskStatus.inProgress ≠ TaskStatus.pending := by decide

/-! ## Claim C5 — version monotonicity across mutation paths -/

/-- Claim C5 evaluated — the version is not incremented on every
mutation path: `mark_completed` (raw SQL) changes the status but
leaves the stored version at 1, and the automatic status resolution
persists its status change through
`save(update_fields=['status','updated_at'])`, which also leaves the
stored version at 1; by contrast `force_complete` does increment the
version to 2. -/
theorem C5_version_not_always_incremented :
    markCompleted ⟨[⟨1, TaskStatus.pending, 3, 8, 1⟩], []⟩ 1 =
      (SimpleResp.ok, ⟨[⟨1, TaskStatus.completed, 3, 8, 1⟩], []⟩) ∧
    updateStatusBasedOnDependencies
        ⟨[⟨1, TaskStatus.completed, 3, 8, 1⟩, ⟨2, TaskStatus.pending, 3, 8, 1⟩], [(2, 1)]⟩
        ⟨2, TaskStatus.pending, 3, 8, 1⟩ =
      (true,
        ⟨[⟨1, TaskStatus.completed, 3, 8, 1⟩, ⟨2, TaskStatus.inProgress, 3, 8, 1⟩],
          [(2, 1)]⟩) ∧
    forceComplete ⟨[⟨1, TaskStatus.pending, 3, 8, 1⟩], []⟩ 1 =
      (SimpleResp.ok, ⟨[⟨1, TaskStatus.completed, 3, 8, 2⟩], []⟩) := by decide

/-! ## Claim C2 — add_dependency on valid input -/

/-- Claim C2 evaluated — a perfectly valid insertion request fails
with a 500: both tasks exist, are distinct, the edge is new and
acyclic, yet the view's `dependency.save(skip_validation=True)`
forwards a keyword Django's `Model.save` does not accept, the
resulting `TypeError` is caught by the generic handler, and nothing is
written (the repository's own `test_add_dependency` expects 201
Created here). -/
theorem C2_add_dependency_valid_input_is_500 :
    addDependency ⟨[⟨1, TaskStatus.pending, 3, 8, 1⟩, ⟨2, TaskStatus.pending, 3, 8, 1⟩],
        []⟩ 1 2 =
      (AddDepResp.serverError,
        ⟨[⟨1, TaskStatus.pending, 3, 8, 1⟩, ⟨2, TaskStatus.pending, 3, 8, 1⟩], []⟩) ∧
    taskDependencySave ["skip_validation"]
        ⟨[⟨1, TaskStatus.pending, 3, 8, 1⟩, ⟨2, TaskStatus.pending, 3, 8, 1⟩], []⟩ 1 2 =
      Except.error DepSaveErr.typeError := ⟨rfl, rfl⟩

/-! ## Claim C3 — critical-path estimate on a diamond -/

/-- The diamond of C3: D(id 4, effort 2) depends on B(id 2, effort 3)
and C(id 3, effort 5); B and C depend on A(id 1, effort 0 — the only
effort for A compatible with a total of 7); all pending. -/
def diamondStore : Store :=
  ⟨[⟨1, TaskStatus.pending, 3, 0, 1⟩, ⟨2, TaskStatus.pending, 3, 3, 1⟩,
      ⟨3, TaskStatus.pending, 3, 5, 1⟩, ⟨4, TaskStatus.pending, 3, 2, 1⟩],
    [(2, 1), (3, 1), (4, 2), (4, 3)]⟩

/-- Claim C3 counterexample: on the diamond the computed critical path
is not `[A, C, D] = [1, 3, 4]` (the shared `visited` set consumes A in
the B branch, and a zero-hour branch never wins the strict `>`
comparison, so A is dropped). -/
theorem C3_counterexample_path_omits_A :
    Option.map CompletionEstimate.criticalPath (getEstimatedCompletionTime diamondStore 4) ≠
      some [1, 3, 4] := by decide

/-- Claim C3 amended: for every diamond over distinct task ids
`a, b, c, d` (D depends on B and C, B and C depend on A; efforts
A=0, B=3, C=5, D=2, all pending), `estimate_completion` on D returns
total_hours = 7 (computed through the longest, C, branch) with
critical_path `[C, D]`. -/
theorem C3_amended_estimate :
    ∀ (a b c d : Nat), a ≠ b → a ≠ c → a ≠ d → b ≠ c → b ≠ d → c ≠ d →
      getEstimatedCompletionTime
        ⟨[⟨a, TaskStatus.pending, 3, 0, 1⟩, ⟨b, TaskStatus.pending, 3, 3, 1⟩,
            ⟨c, TaskStatus.pending, 3, 5, 1⟩, ⟨d, TaskStatus.pending, 3, 2, 1⟩],
          [(b, a), (c, a), (d, b), (d, c)]⟩ d =
      some ⟨7, [c, d], false⟩ := by
  intro a b c d hab hac had hbc hbd hcd
  simp [getEstimatedCompletionTime, calculatePathTime, getTask, getDependencies, canStart,
    List.find?_cons, hab, hac, had, hbc, hbd, hcd,
    Ne.symm hab, Ne.symm hac, Ne.symm had, Ne.symm hbc, Ne.symm hbd, Ne.symm hcd]

/-- Claim C3 amended witness: the diamond at ids 1, 2, 3, 4 (the store
of the counterexample). -/
theorem C3_amended_estimate_witness :
    getEstimatedCompletionTime diamondStore 4 = some ⟨7, [3, 4], false⟩ :=
  C3_amended_estimate 1 2 3 4 (by decide) (by decide) (by decide) (by decide) (by decide)
    (by decide)

/-! ## Claim C9 — cycle detection on a chain -/

/-- Claim C9 — cycle on a chain: with tasks A, B, C (distinct positive
ids) and edges "A depends on B", "B depends on C", the request
`add_dependency(C, A)` is rejected with a cycle error; the reported
path is `[C, A, B, C]` — the suffix of the DFS traversal path from the
first occurrence of the revisited node C through the current node,
inclusive — which contains all of A, B and C; the store is unchanged. -/
theorem C9_chain_cycle_rejected :
    ∀ (ra rb rc : TaskRec),
      ra.id ≠ rb.id → rb.id ≠ rc.id → ra.id ≠ rc.id →
      ra.id ≠ 0 → rb.id ≠ 0 → rc.id ≠ 0 →
      addDependency ⟨[ra, rb, rc], [(ra.id, rb.id), (rb.id, rc.id)]⟩ rc.id ra.id =
        (AddDepResp.badRequestCircular [rc.id, ra.id, rb.id, rc.id],
          ⟨[ra, rb, rc], [(ra.id, rb.id), (rb.id, rc.id)]⟩) ∧
      ra.id ∈ [rc.id, ra.id, rb.id, rc.id] ∧
      rb.id ∈ [rc.id, ra.id, rb.id, rc.id] ∧
      rc.id ∈ [rc.id, ra.id, rb.id, rc.id] := by
  intro ra rb rc hab hbc hac ha0 hb0 hc0
  refine ⟨?_, by simp, by simp, by simp⟩
  simp [addDependency, getTask, detectCircularDependency, dfs, succs,
    List.find?_cons, hab, hbc, hac, ha0, hb0, hc0, Ne.symm hab, Ne.symm hbc, Ne.symm hac,
    Prod.ext_iff]

/-- Claim C9 witness: the chain at ids 1, 2, 3. -/
theorem C9_chain_cycle_rejected_witness :
    addDependency ⟨[⟨1, TaskStatus.pending, 3, 8, 1⟩, ⟨2, TaskStatus.pending, 3, 8, 1⟩,
        ⟨3, TaskStatus.pending, 3, 8, 1⟩], [(1, 2), (2, 3)]⟩ 3 1 =
      (AddDepResp.badRequestCircular [3, 1, 2, 3],
        ⟨[⟨1, TaskStatus.pending, 3, 8, 1⟩, ⟨2, TaskStatus.pending, 3, 8, 1⟩,
          ⟨3, TaskStatus.pending, 3, 8, 1⟩], [(1, 2), (2, 3)]⟩) :=
  (C9_chain_cycle_rejected ⟨1, TaskStatus.pending, 3, 8, 1⟩ ⟨2, TaskStatus.pending, 3, 8, 1⟩
    ⟨3, TaskStatus.pending, 3, 8, 1⟩ (by decide) (by decide) (by decide) (by decide)
    (by decide) (by decide)).1

/-! ## Claim C1 — acyclicity preservation

Graph-theoretic layer: one step along an edge list, reachability,
acyclicity, and list-shaped topological certificates produced by the
DFS (most recently finished node first; every element's successors lie
strictly later in the list). -/

/-- One directed step: the edge `(a, b)` is present. -/
def Step (g : List (Nat × Nat)) (a b : Nat) : Prop := (a, b) ∈ g

/-- Reachability along edges (reflexive-transitive closure). -/
def Reach (g : List (Nat × Nat)) : Nat → Nat → Prop :=
  Relation.ReflTransGen (Step g)

/-- Acyclicity: no nonempty directed path from a node to itself. -/
def Acyclic (g : List (Nat × Nat)) : Prop :=
  ∀ n, ¬ Relation.TransGen (Step g) n n

/-- Membership in `succs` is exactly edge membership. -/
theorem mem_succs {g : List (Nat × Nat)} {x y : Nat} : y ∈ succs g x ↔ (x, y) ∈ g := by
  constructor
  · intro hy
    simp only [succs, List.mem_map, List.mem_filter] at hy
    obtain ⟨e, ⟨he, he1⟩, he2⟩ := hy
    have he1' : e.1 = x := by simpa using he1
    rwa [← he1', ← he2, Prod.mk.eta]
  · intro hxy
    simp only [succs, List.mem_map, List.mem_filter]
    exact ⟨(x, y), ⟨hxy, by simp⟩, rfl⟩

/-- A topological certificate: each element's successors appear
strictly later in the list. -/
def topo (g : List (Nat × Nat)) : List Nat → Prop
  | [] => True
  | x :: rest => (∀ y, Step g x y → y ∈ rest) ∧ topo g rest

/-- `topo` restricts to suffixes. -/
theorem topo_suffix {g : List (Nat × Nat)} :
    ∀ (l₁ l₂ : List Nat), topo g (l₁ ++ l₂) → topo g l₂ := by
  intro l₁
  induction l₁ with
  | nil => intro l₂ h; exact h
  | cons a l₁ ih => intro l₂ h; exact ih l₂ h.2

/-- In a `topo` list, one step from a member lands strictly later. -/
theorem topo_step_after {g : List (Nat × Nat)} :
    ∀ (L : List Nat) (x y : Nat), topo g L → x ∈ L → Step g x y →
      ∃ l₁ l₂, L = l₁ ++ x :: l₂ ∧ y ∈ l₂ := by
  intro L
  induction L with
  | nil => intro x y _ hx; exact absurd hx (List.not_mem_nil x)
  | cons a L ih =>
    intro x y htopo hx hstep
    rcases List.mem_cons.mp hx with hxa | hxL
    · subst hxa
      exact ⟨[], L, rfl, htopo.1 y hstep⟩
    · obtain ⟨l₁, l₂, hL, hy⟩ := ih x y htopo.2 hxL hstep
      exact ⟨a :: l₁, l₂, by rw [hL]; rfl, hy⟩

/-- In a `topo` list, a nonempty path from a member lands strictly
later. -/
theorem topo_trans_after {g : List (Nat × Nat)} {x y : Nat}
    (htg : Relation.TransGen (Step g) x y) :
    ∀ (L : List Nat), topo g L → x ∈ L → ∃ l₁ l₂, L = l₁ ++ x :: l₂ ∧ y ∈ l₂ := by
  induction htg with
  | single h =>
    intro L htopo hx
    exact topo_step_after L _ _ htopo hx h
  | tail hab hby ih =>
    intro L htopo hx
    obtain ⟨l₁, l₂, hL, hb⟩ := ih L htopo hx
    have htopo₂ : topo g l₂ := (topo_suffix l₁ (x :: l₂) (hL ▸ htopo)).2
    obtain ⟨m₁, m₂, hl₂, hy⟩ := topo_step_after l₂ _ _ htopo₂ hb hby
    refine ⟨l₁, l₂, hL, ?_⟩
    rw [hl₂]
    exact List.mem_append_right m₁ (List.mem_cons_of_mem _ hy)

/-- A member of a duplicate-free `topo` list is on no cycle. -/
theorem topo_no_cycle {g : List (Nat × Nat)} {L : List Nat} (htopo : topo g L)
    (hnd : L.Nodup) {x : Nat} (hx : x ∈ L) : ¬ Relation.TransGen (Step g) x x := by
  intro hcyc
  obtain ⟨l₁, l₂, hL, hxl₂⟩ := topo_trans_after hcyc L htopo hx
  rw [hL] at hnd
  exact (List.Nodup.not_mem ((List.nodup_append.mp hnd).2.1)) hxl₂

/-- A `topo` list is closed under reachability from its members. -/
theorem topo_reach_mem {g : List (Nat × Nat)} {L : List Nat} (htopo : topo g L)
    {x y : Nat} (hreach : Reach g x y) (hx : x ∈ L) : y ∈ L := by
  induction hreach with
  | refl => exact hx
  | tail hab hby ih =>
    obtain ⟨l₁, l₂, hL, hy⟩ := topo_step_after L _ _ htopo ih hby
    rw [hL]
    exact List.mem_append_right l₁ (List.mem_cons_of_mem _ hy)

/-- A node is finished when it is visited and off the recursion
stack.  Once finished, a node is never pushed again (pushing only
happens to unvisited nodes). -/
def Done (s : DfsState) (x : Nat) : Prop := x ∈ s.visited ∧ x ∉ s.recStack

/-- The DFS soundness invariant: a duplicate-free topological
certificate lists exactly the finished nodes. -/
def DfsInv (g : List (Nat × Nat)) (s : DfsState) : Prop :=
  ∃ L : List Nat, L.Nodup ∧ (∀ x, x ∈ L ↔ Done s x) ∧ topo g L

/-- How many universe nodes are still unvisited (the termination
measure showing the fuel is sufficient). -/
def freshCount (univ : List Nat) (s : DfsState) : Nat :=
  (univ.filter (fun x => x ∉ s.visited)).length

/-- Filtering with a stronger predicate yields no more elements. -/
theorem length_filter_mono {α : Type} (p q : α → Bool) (h : ∀ x, p x = true → q x = true) :
    ∀ l : List α, (l.filter p).length ≤ (l.filter q).length := by
  intro l
  induction l with
  | nil => exact Nat.le_refl 0
  | cons a l ih =>
    by_cases hp : p a = true
    · rw [List.filter_cons_of_pos hp, List.filter_cons_of_pos (h a hp)]
      exact Nat.succ_le_succ ih
    · rw [List.filter_cons_of_neg (by simpa using hp)]
      by_cases hq : q a = true
      · rw [List.filter_cons_of_pos hq]
        exact Nat.le_succ_of_le ih
      · rw [List.filter_cons_of_neg (by simpa using hq)]
        exact ih

/-- Growing the visited set cannot increase the number of unvisited
universe nodes. -/
theorem freshCount_mono {univ : List Nat} {s t : DfsState}
    (h : ∀ x, x ∈ s.visited → x ∈ t.visited) :
    freshCount univ t ≤ freshCount univ s := by
  refine length_filter_mono _ _ ?_ univ
  intro x hx
  simp only [decide_eq_true_eq] at hx ⊢
  intro hmem
  exact hx (h x hmem)

/-- Visiting a fresh universe node strictly decreases the number of
unvisited universe nodes. -/
theorem freshCount_cons_lt {node : Nat} {vis : List Nat}
    (hv : node ∉ vis) :
    ∀ univ : List Nat, node ∈ univ →
      (univ.filter (fun x => x ∉ node :: vis)).length <
        (univ.filter (fun x => x ∉ vis)).length := by
  intro univ
  induction univ with
  | nil => intro h; exact absurd h (List.not_mem_nil node)
  | cons u univ ih =>
    intro hu
    by_cases hun : u = node
    · subst hun
      rw [List.filter_cons_of_neg (by simp), List.filter_cons_of_pos (by simpa using hv)]
      refine Nat.lt_succ_of_le (length_filter_mono _ _ ?_ univ)
      intro x hx
      simp only [decide_eq_true_eq] at hx ⊢
      intro hmem
      exact hx (List.mem_cons_of_mem _ hmem)
    · have hu' : node ∈ univ := by
        rcases List.mem_cons.mp hu with h | h
        · exact absurd h.symm hun
        · exact h
      by_cases huv : u ∈ vis
      · rw [List.filter_cons_of_neg (by simp [huv]),
          List.filter_cons_of_neg (by simp [huv])]
        exact ih hu'
      · rw [List.filter_cons_of_pos (by simp [List.mem_cons, huv, hun]),
          List.filter_cons_of_pos (by simpa using huv)]
        exact Nat.succ_lt_succ (ih hu')

/-- Once the neighbor fold has found a cycle it ignores the remaining
neighbors (the early `return` of the Python loop). -/
theorem dfs_foldl_some (g : List (Nat × Nat)) (fuel : Nat) (c : List Nat) (s : DfsState) :
    ∀ ns : List Nat,
      ns.foldl
        (fun acc nb =>
          match acc with
          | (some c', s2) => (some c', s2)
          | (none, s2) => dfs g fuel nb s2) (some c, s) = (some c, s) := by
  intro ns
  induction ns with
  | nil => rfl
  | cons n ns ih =>
    rw [List.foldl_cons]
    exact ih

/-- Completeness invariant of the DFS: whenever a call returns `none`
(no cycle) from a state whose finished nodes carry a topological
certificate, the final state again carries one, the recursion stack
and path are restored, the visited set only grew, finished nodes stay
finished, and the argument node ends up finished.  `univ` is any list
containing the argument node and closed under edge targets, and the
fuel dominates the number of unvisited `univ` nodes. -/
theorem dfs_none_invariant (g : List (Nat × Nat)) (univ : List Nat)
    (hUniv : ∀ a b, (a, b) ∈ g → b ∈ univ) :
    ∀ (fuel : Nat) (node : Nat) (s s' : DfsState),
      node ∈ univ → freshCount univ s < fuel → DfsInv g s →
      dfs g fuel node s = (none, s') →
      (∀ x, x ∈ s.visited → x ∈ s'.visited) ∧ s'.recStack = s.recStack ∧
      s'.path = s.path ∧ DfsInv g s' ∧ (∀ x, Done s x → Done s' x) ∧ Done s' node := by
  intro fuel
  induction fuel with
  | zero =>
    intro node s s' _ hf _ _
    exact absurd hf (Nat.not_lt_zero _)
  | succ fuel ih =>
    have hfold : ∀ (ns : List Nat) (s s' : DfsState),
        (∀ n ∈ ns, n ∈ univ) → freshCount univ s < fuel → DfsInv g s →
        ns.foldl
          (fun acc nb =>
            match acc with
            | (some c', s2) => (some c', s2)
            | (none, s2) => dfs g fuel nb s2) (none, s) = (none, s') →
        (∀ x, x ∈ s.visited → x ∈ s'.visited) ∧ s'.recStack = s.recStack ∧
        s'.path = s.path ∧ DfsInv g s' ∧ (∀ x, Done s x → Done s' x) ∧
        (∀ n ∈ ns, Done s' n) := by
      intro ns
      induction ns with
      | nil =>
        intro s s' _ _ hinv heq
        rw [List.foldl_nil] at heq
        injection heq with _ h2
        subst h2
        exact ⟨fun x h => h, rfl, rfl, hinv, fun x h => h,
          fun n hn => absurd hn (List.not_mem_nil n)⟩
      | cons n ns ihns =>
        intro s s' hns hf hinv heq
        rw [List.foldl_cons] at heq
        have heq' : ns.foldl
            (fun acc nb =>
              match acc with
              | (some c', s2) => (some c', s2)
              | (none, s2) => dfs g fuel nb s2) (dfs g fuel n s) = (none, s') := heq
        cases hd : dfs g fuel n s with
        | mk r s2 =>
          rw [hd] at heq'
          cases r with
          | some c =>
            rw [dfs_foldl_some] at heq'
            exact absurd (congrArg Prod.fst heq') (by simp)
          | none =>
            obtain ⟨hsub1, hrs1, hp1, hinv1, hmono1, hdone1⟩ :=
              ih n s s2 (hns n (List.mem_cons_self n ns)) hf hinv hd
            obtain ⟨hsub2, hrs2, hp2, hinv2, hmono2, hdone2⟩ :=
              ihns s2 s' (fun m hm => hns m (List.mem_cons_of_mem n hm))
                (Nat.lt_of_le_of_lt (freshCount_mono hsub1) hf) hinv1 heq'
            refine ⟨fun x hx => hsub2 x (hsub1 x hx), hrs2.trans hrs1, hp2.trans hp1,
              hinv2, fun x hx => hmono2 x (hmono1 x hx), ?_⟩
            intro m hm
            rcases List.mem_cons.mp hm with hmn | hmns
            · subst hmn
              exact hmono2 m hdone1
            · exact hdone2 m hmns
    intro node s s' hnode hf hinv hdfs
    simp only [dfs] at hdfs
    by_cases h1 : node ∈ s.recStack
    · rw [if_pos h1] at hdfs
      exact absurd (congrArg Prod.fst hdfs) (by simp)
    · by_cases h2 : node ∈ s.visited
      · rw [if_neg h1, if_pos h2] at hdfs
        injection hdfs with _ hs
        subst hs
        exact ⟨fun x h => h, rfl, rfl, hinv, fun x h => h, h2, h1⟩
      · rw [if_neg h1, if_neg h2] at hdfs
        cases hfd : (succs g node).foldl
            (fun acc nb =>
              match acc with
              | (some c', s2) => (some c', s2)
              | (none, s2) => dfs g fuel nb s2)
            (none, ⟨node :: s.visited, node :: s.recStack, s.path ++ [node]⟩) with
        | mk r s2 =>
          rw [hfd] at hdfs
          cases r with
          | some c =>
            exact absurd (congrArg Prod.fst hdfs) (by simp)
          | none =>
            have hns : ∀ nb ∈ succs g node, nb ∈ univ := fun nb hnb =>
              hUniv node nb (mem_succs.mp hnb)
            have hf1 : freshCount univ
                ⟨node :: s.visited, node :: s.recStack, s.path ++ [node]⟩ < fuel := by
              have hlt : (univ.filter (fun x => x ∉ node :: s.visited)).length <
                  (univ.filter (fun x => x ∉ s.visited)).length :=
                freshCount_cons_lt h2 univ hnode
              have hle : freshCount univ s ≤ fuel := Nat.lt_succ_iff.mp hf
              exact Nat.lt_of_lt_of_le hlt hle
            have hinv1 : DfsInv g ⟨node :: s.visited, node :: s.recStack,
                s.path ++ [node]⟩ := by
              obtain ⟨L, hnd, hmem, htopo⟩ := hinv
              refine ⟨L, hnd, ?_, htopo⟩
              intro x
              rw [hmem x]
              constructor
              · rintro ⟨hv, hr⟩
                refine ⟨List.mem_cons_of_mem _ hv, ?_⟩
                intro hc
                rcases List.mem_cons.mp hc with he | hm
                · exact h2 (he ▸ hv)
                · exact hr hm
              · rintro ⟨hv, hr⟩
                have hxne : x ≠ node := fun he => hr (he ▸ List.mem_cons_self node _)
                rcases List.mem_cons.mp hv with he | hm
                · exact absurd he hxne
                · exact ⟨hm, fun hx => hr (List.mem_cons_of_mem _ hx)⟩
            obtain ⟨hsub, hrs, hp, hinv2, hmono, hsuccDone⟩ :=
              hfold (succs g node) _ s2 hns hf1 hinv1 hfd
            have hrs' : s2.recStack = node :: s.recStack := hrs
            have hp' : s2.path = s.path ++ [node] := hp
            have hnodev : node ∈ s2.visited := hsub node (List.mem_cons_self node _)
            injection hdfs with _ hs
            subst hs
            have hsrec : (DfsState.mk s2.visited (s2.recStack.erase node)
                s2.path.dropLast).recStack = s.recStack := by
              rw [hrs']
              exact List.erase_cons_head node s.recStack
            have hspath : (DfsState.mk s2.visited (s2.recStack.erase node)
                s2.path.dropLast).path = s.path := by
              rw [hp']
              exact List.dropLast_concat
            refine ⟨fun x hx => hsub x (List.mem_cons_of_mem _ hx), hsrec, hspath, ?_, ?_, ?_⟩
            · obtain ⟨L2, hnd2, hmem2, htopo2⟩ := hinv2
              have hnotin : node ∉ L2 := by
                intro hL
                have hdn := (hmem2 node).mp hL
                exact hdn.2 (hrs' ▸ List.mem_cons_self node s.recStack)
              refine ⟨node :: L2, List.nodup_cons.mpr ⟨hnotin, hnd2⟩, ?_, ?_⟩
              · intro x
                constructor
                · intro hx
                  rcases List.mem_cons.mp hx with he | hm
                  · subst he
                    refine ⟨hnodev, ?_⟩
                    simp only [List.mem_erase_of_ne, hrs']
                    rw [List.erase_cons_head]
                    exact h1
                  · have hdx := (hmem2 x).mp hm
                    refine ⟨hdx.1, ?_⟩
                    rw [hrs', List.erase_cons_head]
                    intro hc
                    exact hdx.2 (hrs' ▸ List.mem_cons_of_mem _ hc)
                · rintro ⟨hv, hr⟩
                  rw [hrs', List.erase_cons_head] at hr
                  by_cases hxn : x = node
                  · exact hxn ▸ List.mem_cons_self node L2
                  · refine List.mem_cons_of_mem _ ((hmem2 x).mpr ⟨hv, ?_⟩)
                    rw [hrs']
                    intro hc
                    rcases List.mem_cons.mp hc with he | hm
                    · exact hxn he
                    · exact hr hm
              · refine ⟨?_, htopo2⟩
                intro y hy
                exact (hmem2 y).mpr (hsuccDone y (mem_succs.mpr hy))
            · intro x hx
              have hd1 : Done ⟨node :: s.visited, node :: s.recStack, s.path ++ [node]⟩ x := by
                refine ⟨List.mem_cons_of_mem _ hx.1, ?_⟩
                intro hc
                rcases List.mem_cons.mp hc with he | hm
                · exact h2 (he ▸ hx.1)
                · exact hx.2 hm
              have hd2 := hmono x hd1
              refine ⟨hd2.1, ?_⟩
              rw [hrs', List.erase_cons_head]
              exact hx.2
            · refine ⟨hnodev, ?_⟩
              rw [hrs', List.erase_cons_head]
              exact h1

/-- Completeness of the cycle detector: when
`detect_circular_dependency` reports no cycle for candidate edge
`(t, d)` (with real, nonzero ids), no node reachable from `t` in the
checked graph — the stored edges plus the candidate — lies on a
cycle. -/
theorem detect_none_no_reachable_cycle {edges : List (Nat × Nat)} {t d : Nat}
    (ht : t ≠ 0) (hd : d ≠ 0)
    (hdet : detectCircularDependency edges t d = none) :
    ∀ x, Reach ((t, d) :: edges) t x →
      ¬ Relation.TransGen (Step ((t, d) :: edges)) x x := by
  rw [detectCircularDependency, if_neg (by simp [ht, hd])] at hdet
  cases hrun : dfs ((t, d) :: edges) (((t, d) :: edges).length + 2) t ⟨[], [], []⟩ with
  | mk r s' =>
    have hr : r = none := by
      have := congrArg Prod.fst hrun
      simp only at this
      rw [← this]
      exact hdet
    subst hr
    have hUniv : ∀ a b, (a, b) ∈ (t, d) :: edges →
        b ∈ t :: ((t, d) :: edges).map Prod.snd := by
      intro a b hab
      exact List.mem_cons_of_mem _ (List.mem_map.mpr ⟨(a, b), hab, rfl⟩)
    have hfresh : freshCount (t :: ((t, d) :: edges).map Prod.snd) ⟨[], [], []⟩ <
        ((t, d) :: edges).length + 2 := by
      have hself : (t :: ((t, d) :: edges).map Prod.snd).filter
          (fun x => x ∉ ([] : List Nat)) = t :: ((t, d) :: edges).map Prod.snd :=
        List.filter_eq_self.mpr (fun a _ => by simp)
      rw [freshCount]
      rw [hself]
      simp
    have hinv0 : DfsInv ((t, d) :: edges) ⟨[], [], []⟩ := by
      refine ⟨[], List.nodup_nil, ?_, trivial⟩
      intro x
      simp [Done]
    obtain ⟨-, -, -, hinv', -, hdone⟩ :=
      dfs_none_invariant ((t, d) :: edges) (t :: ((t, d) :: edges).map Prod.snd) hUniv
        (((t, d) :: edges).length + 2) t ⟨[], [], []⟩ s'
        (List.mem_cons_self _ _) hfresh hinv0 hrun
    obtain ⟨L, hnd, hmem, htopo⟩ := hinv'
    intro x hreach
    exact topo_no_cycle htopo hnd (topo_reach_mem htopo hreach ((hmem t).mpr hdone))

/-- Path surgery: a nonempty path in a graph extended by the edge
`(u, v)` either avoids the new edge entirely, or can be split at the
new edge. -/
theorem transGen_cons_decompose {u v : Nat} {g : List (Nat × Nat)} :
    ∀ {a b : Nat}, Relation.TransGen (Step ((u, v) :: g)) a b →
      Relation.TransGen (Step g) a b ∨
        (Reach ((u, v) :: g) a u ∧ Reach ((u, v) :: g) v b) := by
  intro a b h
  induction h with
  | single hstep =>
    rcases List.mem_cons.mp hstep with he | hm
    · injection he with ha hb
      subst ha
      subst hb
      exact Or.inr ⟨Relation.ReflTransGen.refl, Relation.ReflTransGen.refl⟩
    · exact Or.inl (Relation.TransGen.single hm)
  | tail hab hbc ih =>
    rcases ih with hold | ⟨hau, hvb⟩
    · rcases List.mem_cons.mp hbc with he | hm
      · injection he with hb hc
        subst hb
        subst hc
        refine Or.inr ⟨?_, Relation.ReflTransGen.refl⟩
        exact (Relation.TransGen.mono
          (fun x y hxy => List.mem_cons_of_mem _ hxy) hold).to_reflTransGen
      · exact Or.inl (hold.tail hm)
    · exact Or.inr ⟨hau, hvb.tail hbc⟩

/-- An accepted candidate edge (cycle detector reports none) appended
to an acyclic edge set keeps it acyclic. -/
theorem acyclic_insert {edges : List (Nat × Nat)} {t d : Nat}
    (ht : t ≠ 0) (hd : d ≠ 0) (hacy : Acyclic edges)
    (hdet : detectCircularDependency edges t d = none) :
    Acyclic (edges ++ [(t, d)]) := by
  intro n hcyc
  have hcyc' : Relation.TransGen (Step ((t, d) :: edges)) n n := by
    refine Relation.TransGen.mono ?_ hcyc
    intro x y hxy
    rcases List.mem_append.mp hxy with hmem | hmem
    · exact List.mem_cons_of_mem _ hmem
    · show (x, y) ∈ (t, d) :: edges
      rw [List.mem_singleton.mp hmem]
      exact List.mem_cons_self _ _
  rcases transGen_cons_decompose hcyc' with hold | ⟨hnu, hvn⟩
  · exact hacy n hold
  · have hvu : Reach ((t, d) :: edges) d t := hvn.trans hnu
    have hcyct : Relation.TransGen (Step ((t, d) :: edges)) t t :=
      Relation.TransGen.head' (List.mem_cons_self (t, d) edges) hvu
    exact detect_none_no_reachable_cycle ht hd hdet t Relation.ReflTransGen.refl hcyct

/-- The resolver touches only task rows, never edges. -/
theorem updateStatus_edges (s : Store) (t : TaskRec) :
    (updateStatusBasedOnDependencies s t).2.edges = s.edges := by
  simp only [updateStatusBasedOnDependencies]
  split
  · rfl
  · rfl

/-- A successful `TaskDependency.save` means the cycle detector
reported no cycle and exactly the candidate edge was appended. -/
theorem taskDependencySave_ok {kwargs : List String} {s s' : Store} {t d : Nat}
    (h : taskDependencySave kwargs s t d = Except.ok s') :
    detectCircularDependency s.edges t d = none ∧ s'.edges = s.edges ++ [(t, d)] := by
  rw [taskDependencySave] at h
  by_cases h1 : t = d
  · rw [if_pos h1] at h
    exact absurd h (by simp)
  · rw [if_neg h1] at h
    cases hdet : detectCircularDependency s.edges t d with
    | some p =>
      rw [hdet] at h
      exact absurd h (by simp)
    | none =>
      rw [hdet] at h
      refine ⟨rfl, ?_⟩
      by_cases h2 : (t, d) ∈ s.edges
      · rw [if_pos h2] at h
        exact absurd h (by simp)
      · rw [if_neg h2] at h
        by_cases h3 : kwargs.all (fun k => djangoModelSaveParams.contains k) = true
        · rw [if_pos h3] at h
          cases hg : getTask { s with edges := s.edges ++ [(t, d)] } t with
          | some tk =>
            rw [hg] at h
            injection h with h'
            rw [← h', updateStatus_edges]
          | none =>
            rw [hg] at h
            injection h with h'
            rw [← h']
        · rw [if_neg h3] at h
          exact absurd h (by simp)

/-- The empty edge set is acyclic. -/
theorem acyclic_nil : Acyclic ([] : List (Nat × Nat)) := by
  intro n h
  cases h with
  | single hstep => exact absurd hstep (List.not_mem_nil _)
  | tail _ hstep => exact absurd hstep (List.not_mem_nil _)

/-- A sequence of requested edge insertions, each going through
`TaskDependency.save()` (the model-layer path used by
`TaskDependency.objects.create`, with no extra keyword arguments): an
insertion the save rejects leaves the store as it was. -/
def applyDependencyRequests (s : Store) (reqs : List (Nat × Nat)) : Store :=
  reqs.foldl
    (fun st p =>
      match taskDependencySave [] st p.1 p.2 with
      | Except.ok st' => st'
      | Except.error _ => st) s

/-- Claim C1 — acyclicity is preserved by every accepted insertion:
starting from any store with an acyclic edge set, any sequence of
dependency-insertion requests (over real, nonzero task ids) leaves the
edge set acyclic — every request either fails validation and changes
nothing, or is persisted and keeps the graph cycle-free. -/
theorem C1_acyclicity_preserved :
    ∀ (reqs : List (Nat × Nat)) (s : Store),
      Acyclic s.edges → (∀ p ∈ reqs, p.1 ≠ 0 ∧ p.2 ≠ 0) →
      Acyclic (applyDependencyRequests s reqs).edges := by
  intro reqs
  induction reqs with
  | nil =>
    intro s hacy _
    exact hacy
  | cons p reqs ih =>
    intro s hacy hnz
    simp only [applyDependencyRequests, List.foldl_cons]
    cases hsave : taskDependencySave [] s p.1 p.2 with
    | ok s' =>
      obtain ⟨hdet, hedges⟩ := taskDependencySave_ok hsave
      show Acyclic (applyDependencyRequests s' reqs).edges
      refine ih s' ?_ (fun q hq => hnz q (List.mem_cons_of_mem p hq))
      rw [hedges]
      exact acyclic_insert (hnz p (List.mem_cons_self p reqs)).1
        (hnz p (List.mem_cons_self p reqs)).2 hacy hdet
    | error e =>
      show Acyclic (applyDependencyRequests s reqs).edges
      exact ih s hacy (fun q hq => hnz q (List.mem_cons_of_mem p hq))

/-- Claim C1 witness: from an empty (acyclic) edge set, inserting
edges (1,2) then (2,3) then the rejected (3,1) leaves the edge set
acyclic. -/
theorem C1_acyclicity_preserved_witness :
    Acyclic (applyDependencyRequests
      ⟨[⟨1, TaskStatus.pending, 3, 8, 1⟩, ⟨2, TaskStatus.pending, 3, 8, 1⟩,
          ⟨3, TaskStatus.pending, 3, 8, 1⟩], []⟩
      [(1, 2), (2, 3), (3, 1)]).edges :=
  C1_acyclicity_preserved [(1, 2), (2, 3), (3, 1)]
    ⟨[⟨1, TaskStatus.pending, 3, 8, 1⟩, ⟨2, TaskStatus.pending, 3, 8, 1⟩,
        ⟨3, TaskStatus.pending, 3, 8, 1⟩], []⟩
    acyclic_nil (by decide)
